import Mathlib

/-!
Verification development for the MemoryPool repository (MemoryPoolv2 core).

The C++ sources are shallowly embedded:

* pure size-class arithmetic (`Common.h`, `ThreadCache::getBatchNum`) becomes
  plain functions on `Nat`, with 64-bit `size_t` overflow made explicit where
  bitwise operations are involved;
* `CentralCache::fetchRange` / `CentralCache::returnRange` are embedded at the
  level of machine words: memory is a function `Nat → Nat` (word stored at an
  address; the null pointer is `0`), and the intrusive free-list loops are
  translated write for write;
* `PageCache` state (`freeSpans_`, `spanMap_`) is embedded as association
  lists mirroring `std::map`, and `allocateSpan` / `deallocateSpan` are
  translated branch for branch (including the `operator[]` side effect that
  materialises an empty entry);
* for whole-allocator invariants, the three tiers are combined into a state
  machine in which each intrusive singly-linked free list is abstracted to the
  list of block addresses it threads through (the transfer operations move
  `take`/`drop` prefixes exactly as the pointer code does).
-/

namespace MemPool

/-! ### Constants, from `src/MemoryPoolv2/include/Common.h` and the .cpp files -/

def ALIGNMENT : Nat := 8

def MAX_BYTES : Nat := 256 * 1024

def FREE_LIST_SIZE : Nat := MAX_BYTES / ALIGNMENT

def PAGE_SIZE : Nat := 4096

def SPAN_PAGES : Nat := 8

/-- Modulus of the C++ `size_t` arithmetic (64-bit target). -/
def WORD_MOD : Nat := 2 ^ 64

/-! ### SizeClass (`Common.h`) -/

/-- Model of `SizeClass::roundUp`: `(bytes + ALIGNMENT - 1) & ~(ALIGNMENT - 1)`
on 64-bit `size_t`, where `~(ALIGNMENT - 1) = ~7 = 2^64 - 8`. -/
def roundUp (bytes : Nat) : Nat :=
  ((bytes + (ALIGNMENT - 1)) % WORD_MOD) &&& (WORD_MOD - ALIGNMENT)

/-- Model of `SizeClass::getIndex`:
`bytes = max(bytes, ALIGNMENT); return (bytes + ALIGNMENT - 1) / ALIGNMENT - 1`. -/
def getIndex (bytes : Nat) : Nat :=
  (max bytes ALIGNMENT + ALIGNMENT - 1) / ALIGNMENT - 1

/-! ### ThreadCache::getBatchNum (`src/unnamed/part_003`) -/

/-- Model of `ThreadCache::getBatchNum`. `MAX_BATCH_SIZE = 4 * 1024` is the
constant the function names `CENTRAL_BATCH_MAX_BYTES` in the specification. -/
def MAX_BATCH_SIZE : Nat := 4 * 1024

/-- Piecewise base batch count of `ThreadCache::getBatchNum` (the `baseNum`
cascade in the source, which is also the table the claim states). -/
def batchBase (size : Nat) : Nat :=
  if size ≤ 32 then 64
  else if size ≤ 64 then 32
  else if size ≤ 128 then 16
  else if size ≤ 256 then 8
  else if size ≤ 512 then 4
  else if size ≤ 1024 then 2
  else 1

/-- Model of `ThreadCache::getBatchNum`:
`maxNum = max(1, MAX_BATCH_SIZE / size); return max(1, min(baseNum, maxNum))`. -/
def getBatchNum (size : Nat) : Nat :=
  max 1 (min (batchBase size) (max 1 (MAX_BATCH_SIZE / size)))

/-! ### CentralCache span sizing (`src/unnamed/part_002`) -/

/-- Page count computed at the top of `CentralCache::fetchFromPageCache`:
`(size + PAGE_SIZE - 1) / PAGE_SIZE`. -/
def ceilPages (size : Nat) : Nat := (size + PAGE_SIZE - 1) / PAGE_SIZE

/-- Pages actually requested from (and received from) the page tier by
`CentralCache::fetchFromPageCache`: a fixed `SPAN_PAGES` for sizes up to
`SPAN_PAGES * PAGE_SIZE`, otherwise the exact ceiling. -/
def pagesRequested (size : Nat) : Nat :=
  if size ≤ SPAN_PAGES * PAGE_SIZE then SPAN_PAGES else ceilPages size

/-- Block count computed by `CentralCache::fetchRange` when carving a fresh
span: `totalBlocks = (SPAN_PAGES * PageCache::PAGE_SIZE) / size`. Note the
source uses the constant `SPAN_PAGES`, not the pages actually received. -/
def totalBlocksCode (size : Nat) : Nat := SPAN_PAGES * PAGE_SIZE / size

/-! ### Association-list model of `std::map` (used by `PageCache`)

`freeSpans_ : std::map<size_t, Span*>` and `spanMap_ : std::map<void*, Span*>`
are embedded as association lists ordered by key. `mapSet` models both
`operator[]` assignment and insertion, `mapErase` models `erase`, and
`lowerBound` models `lower_bound` (first entry whose key is `≥` the probe).
A `Span*` free-list head is represented by the list of span start addresses
the intrusive `next` chain threads through; a span descriptor is represented
by its start address, with its `numPages` field stored in the map entry. -/

def mapFind {α : Type} : List (Nat × α) → Nat → Option α
  | [], _ => none
  | (a, b) :: t, k => if k = a then some b else mapFind t k

def mapSet {α : Type} : List (Nat × α) → Nat → α → List (Nat × α)
  | [], k, v => [(k, v)]
  | (a, b) :: t, k, v =>
    if k = a then (k, v) :: t
    else if k < a then (k, v) :: (a, b) :: t
    else (a, b) :: mapSet t k v

def mapErase {α : Type} : List (Nat × α) → Nat → List (Nat × α)
  | [], _ => []
  | (a, b) :: t, k => if k = a then t else (a, b) :: mapErase t k

def lowerBound {α : Type} : List (Nat × α) → Nat → Option (Nat × α)
  | [], _ => none
  | (a, b) :: t, k => if k ≤ a then some (a, b) else lowerBound t k

/-! ### PageCache (`src/unnamed/part_001`, `src/unnamed/part_003`) -/

/-- State of the page tier. `osNext` models the address at which the next
`mmap` of `systemAlloc` places fresh pages (`mmap` returns page-aligned,
zero-initialised memory; the model lets successive mappings be contiguous and
always succeed). -/
structure PCState where
  freeSpans : List (Nat × List Nat)
  spanMap : List (Nat × Nat)
  osNext : Nat
  deriving Repr, DecidableEq

/-- Model of `PageCache::systemAlloc`: obtain `numPages * PAGE_SIZE` bytes of
fresh page-aligned zeroed memory from the OS. -/
def systemAlloc (numPages : Nat) (st : PCState) : Nat × PCState :=
  (st.osNext, { st with osNext := st.osNext + numPages * PAGE_SIZE })

/-- Model of `PageCache::allocateSpan`. The branch structure follows the
source: best-fit `lower_bound` over `freeSpans_`; detach the head span
(rewriting or erasing the entry); split when the span has more pages than
requested, pushing the remainder onto `freeSpans_[newSpan->numPages]`;
record the returned span in `spanMap_`; otherwise fall back to
`systemAlloc`. A descriptor's `numPages` field always equals the key of the
`freeSpans_` list holding it, so the model reads it off the key. In C++ a
`freeSpans_` entry holding a null head would make `span->next` undefined
behaviour; the model returns failure there. -/
def allocateSpan (numPages : Nat) (st : PCState) : Option Nat × PCState :=
  match lowerBound st.freeSpans numPages with
  | some (k, spanList) =>
    match spanList with
    | [] => (none, st)
    | span :: rest =>
      let fs1 := if rest.isEmpty then mapErase st.freeSpans k
                 else mapSet st.freeSpans k rest
      if numPages < k then
        let newAddr := span + numPages * PAGE_SIZE
        let newPages := k - numPages
        let fs2 := mapSet fs1 newPages (newAddr :: (mapFind fs1 newPages).getD [])
        (some span, { st with freeSpans := fs2,
                              spanMap := mapSet st.spanMap span numPages })
      else
        (some span, { st with freeSpans := fs1,
                              spanMap := mapSet st.spanMap span k })
  | none =>
    let alloc := systemAlloc numPages st
    (some alloc.1, { alloc.2 with spanMap := mapSet alloc.2.spanMap alloc.1 numPages })

/-- Model of `PageCache::deallocateSpan`. Follows the source: look the
address up in `spanMap_` (silent return when absent); probe the right
neighbour at `ptr + numPages * PAGE_SIZE`; if the neighbour is registered in
`spanMap_` and currently linked in `freeSpans_[nextSpan->numPages]`, detach
it, erase its `spanMap_` entry and add its pages to the returning span (the
C++ mutates the shared descriptor in place, which the model renders by
rewriting the `spanMap` entry of `ptr`); finally push the span onto
`freeSpans_[span->numPages]`. The `mapSet st.freeSpans q nextList` step
reproduces the `operator[]` side effect of materialising an empty entry. -/
def deallocateSpan (ptr numPages : Nat) (st : PCState) : PCState :=
  match mapFind st.spanMap ptr with
  | none => st
  | some p =>
    let nextAddr := ptr + numPages * PAGE_SIZE
    match mapFind st.spanMap nextAddr with
    | some q =>
      let nextList := (mapFind st.freeSpans q).getD []
      let fs0 := mapSet st.freeSpans q nextList
      if nextAddr ∈ nextList then
        let fs1 := mapSet fs0 q (nextList.erase nextAddr)
        let fs2 := mapSet fs1 (p + q) (ptr :: (mapFind fs1 (p + q)).getD [])
        { st with freeSpans := fs2,
                  spanMap := mapSet (mapErase st.spanMap nextAddr) ptr (p + q) }
      else
        let fs2 := mapSet fs0 p (ptr :: (mapFind fs0 p).getD [])
        { st with freeSpans := fs2 }
    | none =>
      let fs2 := mapSet st.freeSpans p (ptr :: (mapFind st.freeSpans p).getD [])
      { st with freeSpans := fs2 }

/-- Page-tier state holding one free 8-page span at address 4096, registered
in `spanMap_`. -/
def oneSpanState : PCState :=
  { freeSpans := [(8, [4096])], spanMap := [(4096, 8)], osNext := 36864 }

/-- State for the C4 witness: a 2-page span at 4096 being returned, with a
free 3-page right neighbour at 12288. -/
def mergeState : PCState :=
  { freeSpans := [(3, [12288])], spanMap := [(4096, 2), (12288, 3)],
    osNext := 999424 }

/-! ### CentralCache at machine-word level (`src/unnamed/part_002`)

Memory is a function from addresses to the word stored there; `0` is the null
pointer. A free block stores the address of its successor in its first word. -/

/-- Machine memory: the word stored at each address. -/
def Mem : Type := Nat → Nat

/-- Store `v` at address `a`, i.e. `*reinterpret_cast<void**>(a) = v`. -/
def wr (m : Mem) (a v : Nat) : Mem := fun x => if x = a then v else m x

/-- Pointwise update of an index-addressed array. -/
def updF {α : Type} (f : Nat → α) (i : Nat) (v : α) : Nat → α :=
  fun j => if j = i then v else f j

/-- State of the central tier: memory plus the `centralFreeList_` heads. -/
structure CCState where
  mem : Mem
  heads : Nat → Nat

/-- Address of block `i` of the span carved at `start`:
`start + i * size`. -/
def blkAddr (start size i : Nat) : Nat := start + i * size

/-- The carving loops of `fetchRange`: make blocks `a .. a+n-1` of the span
at `start` into a chain (`*(block i) = block (i+1)`) whose last block stores
the null terminator. `n = 0` writes nothing (the source guards the loops so
they never run in that case). -/
def buildChain (m : Mem) (start size a : Nat) : Nat → Mem
  | 0 => m
  | 1 => wr m (blkAddr start size a) 0
  | n + 2 =>
    buildChain (wr m (blkAddr start size a) (blkAddr start size (a + 1)))
      start size (a + 1) (n + 1)

/-- The bounded walk of `fetchRange` over a non-empty list:
`while (current && count < batchNum) { prev = current; current = *current; }`;
returns the final `(prev, current)`. -/
def walkN (m : Mem) : Nat → Nat → Nat → Nat × Nat
  | cur, prev, 0 => (prev, cur)
  | cur, prev, fuel + 1 => if cur = 0 then (prev, cur) else walkN m (m cur) cur fuel

/-- Model of `CentralCache::fetchRange`. The pointer produced by
`fetchFromPageCache` when the list is empty is passed in as `spanPtr`
(`0` models the null failure return). Returns the pointer handed to the
caller and the new state. -/
def fetchRange (index batchNum spanPtr : Nat) (st : CCState) : Nat × CCState :=
  if FREE_LIST_SIZE ≤ index ∨ batchNum = 0 then (0, st)
  else if st.heads index = 0 then
    if spanPtr = 0 then (0, st)
    else
      let size := (index + 1) * ALIGNMENT
      let totalBlocks := SPAN_PAGES * PAGE_SIZE / size
      let allocBlocks := min batchNum totalBlocks
      let m1 := if 1 < allocBlocks then buildChain st.mem spanPtr size 0 allocBlocks
                else st.mem
      (spanPtr,
        { mem := if allocBlocks < totalBlocks then
              buildChain m1 spanPtr size allocBlocks (totalBlocks - allocBlocks)
            else m1,
          heads := if allocBlocks < totalBlocks then
              updF st.heads index (blkAddr spanPtr size allocBlocks)
            else st.heads })
  else
    let pc := walkN st.mem (st.heads index) 0 batchNum
    (st.heads index,
      { mem := if pc.1 ≠ 0 then wr st.mem pc.1 0 else st.mem,
        heads := updF st.heads index pc.2 })

/-- The tail-finding walk of `returnRange`: starting at `e` with the counter
at `count = 1`, follow links while the stored word is non-null and
`count < size`. -/
def findEnd (m : Mem) (e count size : Nat) : Nat :=
  if count < size then
    if m e = 0 then e else findEnd m (m e) (count + 1) size
  else e
termination_by size - count

/-- Model of `CentralCache::returnRange`: find the incoming chain's tail,
splice the current list behind it, and publish the incoming head. -/
def returnRange (start size index : Nat) (st : CCState) : CCState :=
  if start = 0 ∨ FREE_LIST_SIZE ≤ index then st
  else
    let e := findEnd st.mem start 1 size
    { mem := wr st.mem e (st.heads index),
      heads := updF st.heads index start }

/-- The chain shape claimed for the blocks handed to a caller: starting at
`h` there are `n` blocks, each block's first word pointing at the next block
and the last block's first word null. For `n = 0` there is nothing handed
over, hence nothing to check. -/
def chainN (m : Mem) : Nat → Nat → Prop
  | _, 0 => True
  | h, 1 => h ≠ 0 ∧ m h = 0
  | h, n + 2 => h ≠ 0 ∧ chainN m (m h) (n + 1)

/-- A null-terminated acyclic intrusive list in memory, described by the list
of nodes it threads through. -/
def isChain (m : Mem) : Nat → List Nat → Prop
  | h, [] => h = 0
  | h, a :: l => h = a ∧ a ≠ 0 ∧ isChain m (m a) l

/-- All-zero central-tier memory with empty free lists. -/
def zeroCC : CCState := { mem := fun _ => 0, heads := fun _ => 0 }

/-! ### Whole-allocator state machine (`src/unnamed/part_002`, `part_003`)

For whole-allocator invariants the three tiers are combined into one state.
Each per-size-class intrusive singly-linked list is abstracted to the list
of block addresses it threads through; every transfer in the source moves a
contiguous prefix or suffix of a chain, which becomes `take`/`drop`/append
here. -/

/-- Combined allocator state. `tSize` is the `freeListSize_` counter, kept
separate from the actual list exactly as the source keeps it (the source
over-counts after short refills); `live` is ghost bookkeeping of the blocks
currently held by the user, used to state which deallocations are legal. -/
structure AState where
  pc : PCState
  central : Nat → List Nat
  tFree : Nat → List Nat
  tSize : Nat → Nat
  live : List Nat

/-- Model of `CentralCache::fetchFromPageCache`: a fixed `SPAN_PAGES`-page
span for block sizes up to 32 KiB, otherwise exactly the pages needed. -/
def fetchFromPageCacheAbs (size : Nat) (pc : PCState) : Option Nat × PCState :=
  let numPages := (size + PAGE_SIZE - 1) / PAGE_SIZE
  if size ≤ SPAN_PAGES * PAGE_SIZE then allocateSpan SPAN_PAGES pc
  else allocateSpan numPages pc

/-- Addresses of the first `n` blocks carved from the span at `start`. -/
def blockList (start size n : Nat) : List Nat :=
  (List.range n).map (fun i => start + i * size)

/-- Model of `CentralCache::fetchRange` over abstract lists: returns the
chain handed to the thread tier (`none` is the null sentinel) and the new
state. In the carve case with `allocBlocks = 0` (block size above
`SPAN_PAGES * PAGE_SIZE`, where the source computes `totalBlocks = 0`) the
source still returns the span start, rendered as the chain `[start]`. -/
def fetchRangeAbs (index batchNum : Nat) (st : AState) :
    Option (List Nat) × AState :=
  if FREE_LIST_SIZE ≤ index ∨ batchNum = 0 then (none, st)
  else
    match st.central index with
    | [] =>
      let size := (index + 1) * ALIGNMENT
      let res := fetchFromPageCacheAbs size st.pc
      match res.1 with
      | none => (none, { st with pc := res.2 })
      | some start =>
        let totalBlocks := SPAN_PAGES * PAGE_SIZE / size
        let allocBlocks := min batchNum totalBlocks
        let chain := if allocBlocks = 0 then [start]
                     else blockList start size allocBlocks
        let central1 := if allocBlocks < totalBlocks then
            updF st.central index
              ((blockList start size totalBlocks).drop allocBlocks)
          else st.central
        (some chain, { st with pc := res.2, central := central1 })
    | l => (some (l.take batchNum),
        { st with central := updF st.central index (l.drop batchNum) })

/-- Model of `ThreadCache::fetchFromCentralCache`: pull a batch, optimistically
add `batchNum` to the length counter, keep the chain's tail locally when
`batchNum > 1`, and hand the head to the user. -/
def fetchFromCentralCacheAbs (index : Nat) (st : AState) : Option Nat × AState :=
  let size := (index + 1) * ALIGNMENT
  let batchNum := getBatchNum size
  let res := fetchRangeAbs index batchNum st
  match res.1 with
  | none => (none, res.2)
  | some [] => (none, res.2)
  | some (hd :: tl) =>
    let st1 := { res.2 with
      tSize := updF res.2.tSize index (res.2.tSize index + batchNum) }
    let st2 := if 1 < batchNum then { st1 with tFree := updF st1.tFree index tl }
               else st1
    (some hd, { st2 with live := hd :: st2.live })

/-- Model of `ThreadCache::allocate`. Sizes above `MAX_BYTES` go straight to
`malloc`, outside the tiers; the model returns `none` there with the tier
state untouched. -/
def allocateAbs (size0 : Nat) (st : AState) : Option Nat × AState :=
  let size := if size0 = 0 then ALIGNMENT else size0
  if MAX_BYTES < size then (none, st)
  else
    let index := getIndex (roundUp size)
    match st.tFree index with
    | ptr :: rest =>
      (some ptr, { st with tFree := updF st.tFree index rest,
                           tSize := updF st.tSize index (st.tSize index - 1),
                           live := ptr :: st.live })
    | [] => fetchFromCentralCacheAbs index st

/-- Model of `CentralCache::returnRange` over abstract lists: the incoming
chain is walked to its tail — at most `sizeArg` nodes, the bound the caller
passes, with the counter starting at 1 — and spliced in front of the current
list. Nodes beyond the bound are detached from every list (in memory their
sublist leaks when the found tail's link is overwritten). -/
def returnRangeAbs (chain : List Nat) (sizeArg index : Nat)
    (central : Nat → List Nat) : Nat → List Nat :=
  if chain.isEmpty ∨ FREE_LIST_SIZE ≤ index then central
  else updF central index (chain.take (max sizeArg 1) ++ central index)

/-- Model of `ThreadCache::returnToCentralCache`. `l` is the chain threaded
from the head pointer the caller passes (`freeList_[index]`). When the
`keepNum - 1`-step walk runs off the chain (`l.length < keepNum`), the
source's final `splitNode != nullptr` test fails and nothing changes. -/
def returnToCentralCacheAbs (l : List Nat) (size : Nat) (st : AState) : AState :=
  let index := getIndex size
  let alignedSize := roundUp size
  let batchNum := st.tSize index
  if batchNum ≤ 1 then st
  else
    let keepNum := max (batchNum / 4) 1
    let returnNum := batchNum - keepNum
    if l.length < keepNum then st
    else
      let st1 := { st with tFree := updF st.tFree index (l.take keepNum),
                           tSize := updF st.tSize index keepNum }
      if 0 < returnNum ∧ ¬ (l.drop keepNum).isEmpty then
        { st1 with
          central := returnRangeAbs (l.drop keepNum) (returnNum * alignedSize)
                       index st1.central }
      else st1

/-- Model of `ThreadCache::deallocate`: push onto the thread-local list,
bump the counter, and spill to the central tier once the counter exceeds the
threshold 64 (`shouldReturnToCentralCache`). Sizes above `MAX_BYTES` go
straight to `free`, outside the tiers. Removing the pointer from `live` is
ghost bookkeeping. -/
def deallocAbs (ptr size : Nat) (st : AState) : AState :=
  if MAX_BYTES < size then { st with live := st.live.erase ptr }
  else
    let index := getIndex size
    let st1 := { st with tFree := updF st.tFree index (ptr :: st.tFree index),
                         tSize := updF st.tSize index (st.tSize index + 1),
                         live := st.live.erase ptr }
    if 64 < st1.tSize index then returnToCentralCacheAbs (st1.tFree index) size st1
    else st1

/-- Initial allocator state: empty tiers; the OS maps fresh spans starting
at the page-aligned address `base`. -/
def initState (base : Nat) : AState :=
  { pc := { freeSpans := [], spanMap := [], osNext := base },
    central := fun _ => [], tFree := fun _ => [], tSize := fun _ => 0,
    live := [] }

/-- Allocator states reachable through the public interface: any sequence of
`allocate` calls and `deallocate` calls on currently live blocks. -/
inductive Reach : AState → Prop
  | init (base : Nat) (h0 : 0 < base) (ha : PAGE_SIZE ∣ base) :
      Reach (initState base)
  | alloc (s : Nat) {st : AState} (h : Reach st) : Reach (allocateAbs s st).2
  | dealloc (ptr s : Nat) {st : AState} (h : Reach st) (hp : ptr ∈ st.live) :
      Reach (deallocAbs ptr s st)

/-- Alignment invariant: every block address in any tier list or held by the
user is a multiple of `ALIGNMENT`; no span is ever handed back to the page
tier in this variant (`freeSpans_` stays empty); the OS maps page-aligned
spans. -/
def Inv (st : AState) : Prop :=
  (∀ i a, a ∈ st.tFree i → ALIGNMENT ∣ a) ∧
  (∀ i a, a ∈ st.central i → ALIGNMENT ∣ a) ∧
  (∀ a ∈ st.live, ALIGNMENT ∣ a) ∧
  st.pc.freeSpans = [] ∧
  PAGE_SIZE ∣ st.pc.osNext

/-- Clearing the low three bits of a 64-bit value rounds it down to a
multiple of 8. -/
theorem land_highMask (n : Nat) (hn : n < 2 ^ 64) :
    n &&& (2 ^ 64 - 8) = n / 8 * 8 := by
  have hmask : (2 : Nat) ^ 64 - 8 = (2 ^ 61 - 1) <<< 3 := by
    rw [Nat.shiftLeft_eq]
    norm_num
  have hdiv : n / 8 * 8 = (n >>> 3) <<< 3 := by
    rw [Nat.shiftRight_eq_div_pow, Nat.shiftLeft_eq]
  apply Nat.eq_of_testBit_eq
  intro j
  rw [Nat.testBit_land, hmask, hdiv, Nat.testBit_shiftLeft, Nat.testBit_shiftLeft,
    Nat.testBit_shiftRight, Nat.testBit_two_pow_sub_one]
  by_cases h3 : 3 ≤ j
  · have hj : 3 + (j - 3) = j := by omega
    rw [hj]
    by_cases h64 : j < 64
    · have : j - 3 < 61 := by omega
      simp [h3, this]
    · have hfalse : n.testBit j = false :=
        Nat.testBit_lt_two_pow
          (lt_of_lt_of_le hn (Nat.pow_le_pow_right (by norm_num) (by omega)))
      have h61 : ¬ (j - 3 < 61) := by omega
      simp [hfalse, h61]
  · simp [h3]

/-- On all inputs that do not overflow `size_t`, `roundUp` computes the least
multiple of 8 that is at least `bytes`. -/
theorem roundUp_eq (bytes : Nat) (h : bytes + 7 < 2 ^ 64) :
    roundUp bytes = (bytes + 7) / 8 * 8 := by
  unfold roundUp WORD_MOD ALIGNMENT
  rw [Nat.mod_eq_of_lt (by omega)]
  exact land_highMask _ (by omega)

theorem roundUp_ge (bytes : Nat) (h1 : 1 ≤ bytes) (h2 : bytes ≤ MAX_BYTES) :
    8 ≤ roundUp bytes := by
  rw [roundUp_eq bytes (by unfold MAX_BYTES at h2; omega)]
  omega

theorem roundUp_le (bytes : Nat) (h2 : bytes ≤ MAX_BYTES) :
    roundUp bytes ≤ MAX_BYTES := by
  rw [roundUp_eq bytes (by unfold MAX_BYTES at h2; omega)]
  unfold MAX_BYTES at *
  omega

theorem getIndex_le (b : Nat) (hb : b ≤ MAX_BYTES) : getIndex b < FREE_LIST_SIZE := by
  unfold getIndex FREE_LIST_SIZE MAX_BYTES ALIGNMENT at *
  omega

/-- Claim C10: for every request size `1 ≤ s ≤ MAX_BYTES`, both
`getIndex (roundUp s)` (computed on the allocate path) and `getIndex s`
(computed on the deallocate path) are strictly below `FREE_LIST_SIZE = 32768`,
so every `freeList_` / `freeListSize_` / `centralFreeList_` / `locks_` access
on those paths is in bounds. -/
theorem getIndex_inBounds (s : Nat) (h1 : 1 ≤ s) (h2 : s ≤ MAX_BYTES) :
    getIndex (roundUp s) < FREE_LIST_SIZE ∧ getIndex s < FREE_LIST_SIZE :=
  ⟨getIndex_le _ (roundUp_le s h2), getIndex_le s h2⟩

/-- Witness for C10 at `s = 1`. -/
theorem getIndex_inBounds_witness :
    getIndex (roundUp 1) < FREE_LIST_SIZE ∧ getIndex 1 < FREE_LIST_SIZE :=
  getIndex_inBounds 1 (by decide) (by decide)

/-- Claim C6: for every size class, the refill batch count equals
`max(1, min(base, 4096 / blockSize))` with the claimed piecewise base. -/
theorem getBatchNum_spec (i : Nat) :
    getBatchNum ((i + 1) * ALIGNMENT) =
      max 1 (min (batchBase ((i + 1) * ALIGNMENT))
        (MAX_BATCH_SIZE / ((i + 1) * ALIGNMENT))) := by
  set s := (i + 1) * ALIGNMENT with hs
  have hs8 : 8 ≤ s := by
    rw [hs]; unfold ALIGNMENT; nlinarith
  unfold getBatchNum
  by_cases hbig : s ≤ 1024
  · have hq : 1 ≤ MAX_BATCH_SIZE / s := by
      apply Nat.le_div_iff_mul_le (by omega) |>.mpr
      unfold MAX_BATCH_SIZE
      omega
    rw [max_eq_right hq]
  · have hb1 : batchBase s = 1 := by
      unfold batchBase
      have h32 : ¬ s ≤ 32 := by omega
      have h64 : ¬ s ≤ 64 := by omega
      have h128 : ¬ s ≤ 128 := by omega
      have h256 : ¬ s ≤ 256 := by omega
      have h512 : ¬ s ≤ 512 := by omega
      simp [h32, h64, h128, h256, h512, hbig]
    rw [hb1]
    omega

/-- Claim C1, counterexample: at block size `262144` (the largest size class),
`fetchFromPageCache` receives 64 pages, so the claimed carve count
`(pagesReceived * PAGE_SIZE) / blockSize` is `1`, but the code computes
`totalBlocks = (SPAN_PAGES * PAGE_SIZE) / blockSize = 0`, which is neither
the claimed value nor at least 1. -/
theorem totalBlocks_counterexample :
    totalBlocksCode 262144 = 0 ∧
      pagesRequested 262144 = 64 ∧
      pagesRequested 262144 * PAGE_SIZE / 262144 = 1 ∧
      ¬ (totalBlocksCode 262144 = pagesRequested 262144 * PAGE_SIZE / 262144 ∧
          1 ≤ totalBlocksCode 262144) := by
  decide

/-- Claim C1, amended: the code computes
`totalBlocks = (SPAN_PAGES * PAGE_SIZE) / blockSize`. For the size classes
with `blockSize ≤ SPAN_PAGES * PAGE_SIZE = 32768` this coincides with
`(pagesReceived * PAGE_SIZE) / blockSize` and is at least 1; for the larger
supported size classes (`32768 < blockSize ≤ MAX_BYTES`) the code computes
`totalBlocks = 0` even though the span received holds one block. -/
theorem totalBlocks_amended (k : Nat) (h1 : 1 ≤ k) (h2 : 8 * k ≤ MAX_BYTES) :
    (8 * k ≤ SPAN_PAGES * PAGE_SIZE →
      totalBlocksCode (8 * k) = pagesRequested (8 * k) * PAGE_SIZE / (8 * k) ∧
        1 ≤ totalBlocksCode (8 * k)) ∧
    (SPAN_PAGES * PAGE_SIZE < 8 * k → totalBlocksCode (8 * k) = 0) := by
  unfold totalBlocksCode pagesRequested SPAN_PAGES PAGE_SIZE MAX_BYTES at *
  constructor
  · intro hle
    constructor
    · simp [hle]
    · apply Nat.le_div_iff_mul_le (by omega) |>.mpr
      omega
  · intro hgt
    apply Nat.div_eq_of_lt
    omega

/-- Witness for the amended C1 at `k = 1` (block size 8). -/
theorem totalBlocks_amended_witness :
    totalBlocksCode (8 * 1) = pagesRequested (8 * 1) * PAGE_SIZE / (8 * 1) ∧
      1 ≤ totalBlocksCode (8 * 1) :=
  (totalBlocks_amended 1 (by decide) (by decide)).1 (by decide)

theorem mapFind_mapSet_self {α : Type} (m : List (Nat × α)) (k : Nat) (v : α) :
    mapFind (mapSet m k v) k = some v := by
  induction m with
  | nil => simp [mapSet, mapFind]
  | cons e t ih =>
    obtain ⟨a, b⟩ := e
    unfold mapSet
    by_cases h1 : k = a
    · simp [h1, mapFind]
    · by_cases h2 : k < a
      · simp [h1, h2, mapFind]
      · simp [h1, h2, mapFind, ih]

theorem mapFind_mapSet_ne {α : Type} (m : List (Nat × α)) (k k' : Nat) (v : α)
    (h : k' ≠ k) : mapFind (mapSet m k v) k' = mapFind m k' := by
  induction m with
  | nil => simp [mapSet, mapFind, h]
  | cons e t ih =>
    obtain ⟨a, b⟩ := e
    unfold mapSet
    by_cases h1 : k = a
    · subst h1
      simp [mapFind, h]
    · by_cases h2 : k < a
      · simp [h1, h2, mapFind, h]
      · simp [h1, h2, mapFind, ih]

theorem mapFind_mapErase_ne {α : Type} (m : List (Nat × α)) (k k' : Nat)
    (h : k' ≠ k) : mapFind (mapErase m k) k' = mapFind m k' := by
  induction m with
  | nil => simp [mapErase]
  | cons e t ih =>
    obtain ⟨a, b⟩ := e
    unfold mapErase
    by_cases h1 : k = a
    · subst h1
      simp [mapFind, h]
    · simp [h1, mapFind, ih]

theorem mapFind_mapErase_self {α : Type} (m : List (Nat × α)) (k : Nat)
    (hk : (m.map Prod.fst).Nodup) : mapFind (mapErase m k) k = none := by
  induction m with
  | nil => simp [mapErase, mapFind]
  | cons e t ih =>
    obtain ⟨a, b⟩ := e
    simp only [List.map_cons, List.nodup_cons] at hk
    unfold mapErase
    by_cases h1 : k = a
    · subst h1
      rw [if_pos rfl]
      cases hfind : mapFind t k with
      | none => rfl
      | some v =>
        exfalso
        apply hk.1
        clear ih hk
        induction t with
        | nil => simp [mapFind] at hfind
        | cons e2 t2 ih2 =>
          obtain ⟨a2, b2⟩ := e2
          unfold mapFind at hfind
          by_cases h2 : k = a2
          · simp [h2]
          · simp only [h2, if_false] at hfind
            simp [ih2 hfind]
    · simp [h1, mapFind, ih hk.2]

/-- Claim C3, counterexample: start from `oneSpanState` and request 5 pages.
The split happens: the 3-page remainder at `4096 + 5 * PAGE_SIZE = 24576` is
inserted at the head of `freeSpans_[3]`, but — contrary to the claim — it is
NOT recorded in `spanMap_` (the source records only the returned low span). -/
theorem allocateSpan_split_counterexample :
    (allocateSpan 5 oneSpanState).2.freeSpans = [(3, [24576])] ∧
    mapFind (allocateSpan 5 oneSpanState).2.spanMap 24576 = none := by
  constructor <;> rfl

/-- Claim C3, amended: when the best-fit span's page count strictly exceeds
`numPages`, the low `numPages` pages are returned and recorded in `spanMap_`
with page count `numPages`, and the remaining pages become a new span
descriptor inserted at the head of the `freeSpans_` list keyed by its new
page count `k - numPages` — but the remainder is NOT recorded in `spanMap_`. -/
theorem allocateSpan_split_amended (numPages k span : Nat) (rest : List Nat)
    (st : PCState)
    (hlb : lowerBound st.freeSpans numPages = some (k, span :: rest))
    (hsplit : numPages < k)
    (hnew : mapFind st.spanMap (span + numPages * PAGE_SIZE) = none)
    (hne : span + numPages * PAGE_SIZE ≠ span) :
    (allocateSpan numPages st).1 = some span ∧
    (∃ tl, mapFind (allocateSpan numPages st).2.freeSpans (k - numPages) =
        some ((span + numPages * PAGE_SIZE) :: tl)) ∧
    mapFind (allocateSpan numPages st).2.spanMap (span + numPages * PAGE_SIZE) =
      none ∧
    mapFind (allocateSpan numPages st).2.spanMap span = some numPages := by
  unfold allocateSpan
  rw [hlb]
  simp only [hsplit, if_true]
  refine ⟨trivial, ⟨_, mapFind_mapSet_self _ _ _⟩, ?_, mapFind_mapSet_self _ _ _⟩
  rw [mapFind_mapSet_ne _ _ _ _ hne]
  exact hnew

/-- Witness for the amended C3 on the concrete one-span state. -/
theorem allocateSpan_split_amended_witness :
    (allocateSpan 5 oneSpanState).1 = some 4096 ∧
    (∃ tl, mapFind (allocateSpan 5 oneSpanState).2.freeSpans (8 - 5) =
        some ((4096 + 5 * PAGE_SIZE) :: tl)) ∧
    mapFind (allocateSpan 5 oneSpanState).2.spanMap (4096 + 5 * PAGE_SIZE) =
      none ∧
    mapFind (allocateSpan 5 oneSpanState).2.spanMap 4096 = some 5 :=
  allocateSpan_split_amended 5 8 4096 [] oneSpanState rfl (by decide) rfl
    (by decide)

/-- Claim C9: `deallocateSpan` on an address with no `spanMap_` descriptor
returns silently, leaving `freeSpans_` and `spanMap_` (the whole page-tier
state) unchanged. -/
theorem deallocateSpan_unknown_noop (ptr numPages : Nat) (st : PCState)
    (h : mapFind st.spanMap ptr = none) :
    deallocateSpan ptr numPages st = st := by
  unfold deallocateSpan
  rw [h]

/-- Witness for C9: deallocating an address the page tier never mapped. -/
theorem deallocateSpan_unknown_noop_witness :
    deallocateSpan 8192 1 { freeSpans := [(3, [24576])], spanMap := [(4096, 5)],
                            osNext := 36864 } =
      { freeSpans := [(3, [24576])], spanMap := [(4096, 5)], osNext := 36864 } :=
  deallocateSpan_unknown_noop 8192 1 _ rfl

/-- Reading any key after `mapSet m k ((mapFind m k).getD [])` (the
`operator[]` materialisation of a possibly-absent entry) yields the same
default-read list as before. -/
theorem mapFind_mapSet_getD (m : List (Nat × List Nat)) (k k2 : Nat) :
    (mapFind (mapSet m k ((mapFind m k).getD [])) k2).getD [] =
      (mapFind m k2).getD [] := by
  by_cases h : k2 = k
  · subst h
    rw [mapFind_mapSet_self]
    rfl
  · rw [mapFind_mapSet_ne _ _ _ _ h]

/-- Claim C4: for an address present in `spanMap_`, `deallocateSpan` merges
with a right neighbour exactly when `spanMap_` holds a descriptor at
`ptr + numPages * PAGE_SIZE` that is currently linked in
`freeSpans_[neighbour.numPages]`; on merge it detaches the neighbour from
that list, erases its `spanMap_` entry, and adds its page count to the
returning span; the (possibly merged) span is inserted at the head of
`freeSpans_[span->numPages]`; and no other address — in particular no left
neighbour — is probed or modified. -/
theorem deallocateSpan_spec (ptr numPages p nextAddr : Nat) (st : PCState)
    (hp : mapFind st.spanMap ptr = some p)
    (hna : nextAddr = ptr + numPages * PAGE_SIZE)
    (hnp : 0 < numPages) (hp0 : 0 < p)
    (hkeys : (st.spanMap.map Prod.fst).Nodup) :
    (∀ q, mapFind st.spanMap nextAddr = some q →
      nextAddr ∈ (mapFind st.freeSpans q).getD [] →
      ((mapFind st.freeSpans q).getD []).Nodup →
      mapFind (deallocateSpan ptr numPages st).spanMap nextAddr = none ∧
      mapFind (deallocateSpan ptr numPages st).spanMap ptr = some (p + q) ∧
      mapFind (deallocateSpan ptr numPages st).freeSpans (p + q) =
        some (ptr :: (mapFind st.freeSpans (p + q)).getD []) ∧
      nextAddr ∉ (mapFind (deallocateSpan ptr numPages st).freeSpans q).getD []) ∧
    (mapFind st.spanMap nextAddr = none →
      (deallocateSpan ptr numPages st).spanMap = st.spanMap ∧
      mapFind (deallocateSpan ptr numPages st).freeSpans p =
        some (ptr :: (mapFind st.freeSpans p).getD [])) ∧
    (∀ q, mapFind st.spanMap nextAddr = some q →
      nextAddr ∉ (mapFind st.freeSpans q).getD [] →
      (deallocateSpan ptr numPages st).spanMap = st.spanMap ∧
      mapFind (deallocateSpan ptr numPages st).freeSpans p =
        some (ptr :: (mapFind st.freeSpans p).getD [])) ∧
    (∀ a, a ≠ ptr → a ≠ nextAddr →
      mapFind (deallocateSpan ptr numPages st).spanMap a =
        mapFind st.spanMap a) ∧
    (∀ a k2, a ≠ ptr → a ≠ nextAddr →
      (a ∈ (mapFind (deallocateSpan ptr numPages st).freeSpans k2).getD [] ↔
        a ∈ (mapFind st.freeSpans k2).getD [])) := by
  have hAne : nextAddr ≠ ptr := by
    subst hna
    unfold PAGE_SIZE
    omega
  subst hna
  refine ⟨?_, ?_, ?_, ?_, ?_⟩
  · -- merge case
    intro q hq hmem hnd
    have hq0 : p + q ≠ q := by omega
    unfold deallocateSpan
    simp only [hp, hq]
    rw [if_pos hmem]
    refine ⟨?_, ?_, ?_, ?_⟩
    · rw [mapFind_mapSet_ne _ _ _ _ hAne]
      exact mapFind_mapErase_self _ _ hkeys
    · exact mapFind_mapSet_self _ _ _
    · rw [mapFind_mapSet_self, mapFind_mapSet_ne _ _ _ _ hq0,
        mapFind_mapSet_ne _ _ _ _ hq0]
    · rw [mapFind_mapSet_ne _ _ _ _ (Ne.symm hq0), mapFind_mapSet_self]
      exact hnd.not_mem_erase
  · -- right neighbour absent from spanMap
    intro hq
    unfold deallocateSpan
    simp only [hp, hq]
    exact ⟨trivial, mapFind_mapSet_self _ _ _⟩
  · -- right neighbour known but not linked in its free list
    intro q hq hmem
    unfold deallocateSpan
    simp only [hp, hq]
    rw [if_neg hmem]
    refine ⟨rfl, ?_⟩
    rw [mapFind_mapSet_self, mapFind_mapSet_getD]
  · -- no other spanMap entry is touched
    intro a ha hA
    unfold deallocateSpan
    cases hq : mapFind st.spanMap (ptr + numPages * PAGE_SIZE) with
    | none => simp only [hp, hq]
    | some q =>
      simp only [hp, hq]
      by_cases hmem : ptr + numPages * PAGE_SIZE ∈ (mapFind st.freeSpans q).getD []
      · rw [if_pos hmem]
        rw [mapFind_mapSet_ne _ _ _ _ ha]
        exact mapFind_mapErase_ne _ _ _ hA
      · rw [if_neg hmem]
  · -- no other free-list membership is touched
    intro a k2 ha hA
    unfold deallocateSpan
    cases hq : mapFind st.spanMap (ptr + numPages * PAGE_SIZE) with
    | none =>
      simp only [hp, hq]
      by_cases hk : k2 = p
      · subst hk
        rw [mapFind_mapSet_self]
        simp [ha]
      · rw [mapFind_mapSet_ne _ _ _ _ hk]
    | some q =>
      simp only [hp, hq]
      by_cases hmem : ptr + numPages * PAGE_SIZE ∈ (mapFind st.freeSpans q).getD []
      · rw [if_pos hmem]
        by_cases hk : k2 = p + q
        · subst hk
          rw [mapFind_mapSet_self]
          by_cases hq0 : p + q = q
          · -- degenerate p = 0 cannot happen
            omega
          · rw [mapFind_mapSet_ne _ _ _ _ hq0, mapFind_mapSet_ne _ _ _ _ hq0]
            simp [ha]
        · rw [mapFind_mapSet_ne _ _ _ _ hk]
          by_cases hkq : k2 = q
          · subst hkq
            rw [mapFind_mapSet_self]
            simp only [Option.getD_some]
            exact List.mem_erase_of_ne hA
          · rw [mapFind_mapSet_ne _ _ _ _ hkq, mapFind_mapSet_ne _ _ _ _ hkq]
      · rw [if_neg hmem]
        by_cases hk : k2 = p
        · subst hk
          rw [mapFind_mapSet_self]
          simp only [Option.getD_some, List.mem_cons, mapFind_mapSet_getD]
          simp [ha]
        · rw [mapFind_mapSet_ne _ _ _ _ hk]
          by_cases hkq : k2 = q
          · subst hkq
            rw [mapFind_mapSet_self]
            simp
          · rw [mapFind_mapSet_ne _ _ _ _ hkq]

/-- Witness for C4: the concrete forward merge at `mergeState`. -/
theorem deallocateSpan_spec_witness :
    mapFind (deallocateSpan 4096 2 mergeState).spanMap 12288 = none ∧
    mapFind (deallocateSpan 4096 2 mergeState).spanMap 4096 = some (2 + 3) ∧
    mapFind (deallocateSpan 4096 2 mergeState).freeSpans (2 + 3) =
      some (4096 :: (mapFind mergeState.freeSpans (2 + 3)).getD []) ∧
    12288 ∉ (mapFind (deallocateSpan 4096 2 mergeState).freeSpans 3).getD [] :=
  (deallocateSpan_spec 4096 2 2 12288 mergeState rfl (by decide) (by decide)
      (by decide) (by decide)).1 3 rfl (by decide) (by decide)

/-- Claim C8: `fetchRange` rejects with the null sentinel, state untouched,
whenever `index ≥ FREE_LIST_SIZE` or `batchNum = 0`; and `returnRange`
rejects silently, state untouched, whenever the incoming head is null or
`index ≥ FREE_LIST_SIZE`. -/
theorem reject_guards (index batchNum spanPtr start size : Nat) (st : CCState)
    (hf : FREE_LIST_SIZE ≤ index ∨ batchNum = 0)
    (hr : start = 0 ∨ FREE_LIST_SIZE ≤ index) :
    fetchRange index batchNum spanPtr st = (0, st) ∧
    returnRange start size index st = st := by
  constructor
  · unfold fetchRange
    rw [if_pos hf]
  · unfold returnRange
    rw [if_pos hr]

/-- Witness for C8 at `index = FREE_LIST_SIZE`, `batchNum = 0`, null head. -/
theorem reject_guards_witness :
    fetchRange FREE_LIST_SIZE 0 0 { mem := fun _ => 0, heads := fun _ => 0 } =
      (0, { mem := fun _ => 0, heads := fun _ => 0 }) ∧
    returnRange 0 64 FREE_LIST_SIZE { mem := fun _ => 0, heads := fun _ => 0 } =
      { mem := fun _ => 0, heads := fun _ => 0 } :=
  reject_guards FREE_LIST_SIZE 0 0 0 64 _ (Or.inl le_rfl) (Or.inl rfl)

theorem blkAddr_ne (start size i j : Nat) (hs : 0 < size) (hij : i ≠ j) :
    blkAddr start size i ≠ blkAddr start size j := by
  unfold blkAddr
  rcases Nat.lt_or_ge i j with h | h
  · have h2 : i * size < j * size := Nat.mul_lt_mul_of_lt_of_le h le_rfl hs
    omega
  · have hj : j < i := by omega
    have h2 : j * size < i * size := Nat.mul_lt_mul_of_lt_of_le hj le_rfl hs
    omega

/-- Addresses outside the blocks being linked are untouched by the carving
loops. -/
theorem buildChain_out (start size : Nat) :
    ∀ (n a : Nat) (m : Mem) (x : Nat),
      (∀ i, a ≤ i → i < a + n → x ≠ blkAddr start size i) →
      buildChain m start size a n x = m x
  | 0, _, _, _, _ => rfl
  | 1, a, m, x, hx => by
    have hxa : x ≠ blkAddr start size a := hx a le_rfl (by omega)
    show wr m (blkAddr start size a) 0 x = m x
    simp [wr, hxa]
  | n + 2, a, m, x, hx => by
    have hxa : x ≠ blkAddr start size a := hx a le_rfl (by omega)
    show buildChain (wr m (blkAddr start size a) (blkAddr start size (a + 1)))
        start size (a + 1) (n + 1) x = m x
    rw [buildChain_out start size (n + 1) (a + 1) _ x
      (fun i h1 h2 => hx i (by omega) (by omega))]
    simp [wr, hxa]

/-- Reading a linked block after the carving loops: block `a + i` stores the
address of block `a + i + 1`, and the final block stores null. -/
theorem buildChain_read (start size : Nat) (hs : 0 < size) :
    ∀ (n a i : Nat) (m : Mem), i < n →
      buildChain m start size a n (blkAddr start size (a + i)) =
        if i + 1 < n then blkAddr start size (a + i + 1) else 0
  | 0, _, i, _, hi => absurd hi (by omega)
  | 1, a, i, m, hi => by
    have hi0 : i = 0 := by omega
    subst hi0
    show wr m (blkAddr start size a) 0 (blkAddr start size (a + 0)) = _
    simp [wr]
  | n + 2, a, i, m, hi => by
    show buildChain (wr m (blkAddr start size a) (blkAddr start size (a + 1)))
        start size (a + 1) (n + 1) (blkAddr start size (a + i)) = _
    cases i with
    | zero =>
      rw [buildChain_out start size (n + 1) (a + 1) _ _
        (fun j h1 h2 => blkAddr_ne start size (a + 0) j hs (by omega))]
      simp [wr]
    | succ j =>
      have hrec := buildChain_read start size hs (n + 1) (a + 1) j
        (wr m (blkAddr start size a) (blkAddr start size (a + 1))) (by omega)
      have hadd : a + 1 + j = a + (j + 1) := by omega
      rw [hadd] at hrec
      rw [hrec]
      by_cases hlt : j + 1 < n + 1
      · rw [if_pos hlt, if_pos (by omega)]
      · rw [if_neg hlt, if_neg (by omega)]

/-- If memory links blocks `a .. a+n-1` consecutively with a null
terminator, they form a `chainN` of length `n` from block `a`. -/
theorem chainN_blocks (start size : Nat) (hs : 0 < size) (h0 : 0 < start) (m : Mem) :
    ∀ (n a : Nat),
      (∀ i, i < n → m (blkAddr start size (a + i)) =
          if i + 1 < n then blkAddr start size (a + i + 1) else 0) →
      chainN m (blkAddr start size a) n
  | 0, _, _ => trivial
  | 1, a, hr => by
    refine ⟨by unfold blkAddr; omega, ?_⟩
    have h := hr 0 (by omega)
    rw [if_neg (by omega)] at h
    simpa using h
  | n + 2, a, hr => by
    refine ⟨by unfold blkAddr; omega, ?_⟩
    have h := hr 0 (by omega)
    rw [if_pos (by omega)] at h
    have h' : m (blkAddr start size a) = blkAddr start size (a + 1) := by
      simpa using h
    rw [h']
    have hnext := chainN_blocks start size hs h0 m (n + 1) (a + 1)
      (fun i hi => by
        have := hr (i + 1) (by omega)
        have hadd : a + (i + 1) = a + 1 + i := by omega
        rw [hadd] at this
        rw [this]
        by_cases hlt : i + 1 < n + 1
        · rw [if_pos (by omega), if_pos hlt]
        · rw [if_neg (by omega), if_neg hlt])
    exact hnext

theorem chainN_of_isChain (m : Mem) :
    ∀ (l : List Nat) (h : Nat), isChain m h l → chainN m h l.length
  | [], _, _ => trivial
  | [a], h, hc => by
    obtain ⟨heq, ha, hrest⟩ := hc
    rw [heq]
    exact ⟨ha, hrest⟩
  | a :: b :: l, h, hc => by
    obtain ⟨heq, ha, hrest⟩ := hc
    rw [heq]
    exact ⟨ha, chainN_of_isChain m (b :: l) (m a) hrest⟩

theorem isChain_ne_zero (m : Mem) :
    ∀ (l : List Nat) (h a : Nat), isChain m h l → a ∈ l → a ≠ 0
  | [], _, _, _, hmem => absurd hmem (by simp)
  | b :: l, h, a, hc, hmem => by
    obtain ⟨heq, hb, hrest⟩ := hc
    rcases List.mem_cons.mp hmem with rfl | hmem2
    · exact hb
    · exact isChain_ne_zero m l (m b) a hrest hmem2

/-- Result of the bounded walk over a valid chain: with `t = min fuel len`,
`prev` is node `t - 1` and `current` is node `t` (null past the end). -/
theorem walkN_spec (m : Mem) :
    ∀ (fuel : Nat) (l : List Nat) (h prev0 : Nat),
      isChain m h l → 1 ≤ fuel → l ≠ [] →
      walkN m h prev0 fuel =
        (l.getD (min fuel l.length - 1) 0, l.getD (min fuel l.length) 0)
  | 0, _, _, _, _, hf, _ => absurd hf (by omega)
  | fuel + 1, [], _, _, _, _, hl => absurd rfl hl
  | fuel + 1, a :: l, h, prev0, hc, _, _ => by
    obtain ⟨heq, ha, hrest⟩ := hc
    rw [heq]
    show (if a = 0 then (prev0, a) else walkN m (m a) a fuel) = _
    rw [if_neg ha]
    cases fuel with
    | zero =>
      show (a, m a) = _
      cases l with
      | nil =>
        have h0 : m a = 0 := hrest
        simp [h0]
      | cons b t =>
        obtain ⟨hb, _, _⟩ := hrest
        have hmin : min 1 (b :: t).length.succ = 1 := by
          simp [Nat.min_def]
        simp [hb]
    | succ f =>
      cases l with
      | nil =>
        have h0 : m a = 0 := hrest
        rw [h0]
        show walkN m 0 a (f + 1) = _
        simp [walkN]
      | cons b t =>
        have hb : m a = b := hrest.1
        rw [walkN_spec m (f + 1) (b :: t) (m a) a hrest (by omega) (by simp)]
        have hM1 : 1 ≤ min (f + 1) (b :: t).length := by
          simp only [List.length_cons]
          omega
        have h1 : min (f + 1 + 1) (a :: b :: t).length =
            min (f + 1) (b :: t).length + 1 := by
          simp only [List.length_cons]
          omega
        rw [h1]
        have h2 : min (f + 1) (b :: t).length + 1 - 1 =
            (min (f + 1) (b :: t).length - 1) + 1 := by omega
        rw [h2, List.getD_cons_succ, List.getD_cons_succ]

/-- Cutting a valid chain after its `t`-th node (storing null into node
`t - 1`, as the taken-list branch of `fetchRange` does) leaves a valid chain
over the first `t` nodes. -/
theorem isChain_take_cut (m : Mem) :
    ∀ (l : List Nat) (h t : Nat), isChain m h l → l.Nodup → 1 ≤ t → t ≤ l.length →
      isChain (wr m (l.getD (t - 1) 0) 0) h (l.take t)
  | [], _, _, _, _, h1, h2 => by simp at h2; omega
  | a :: l, h, 1, hc, _, _, _ => by
    obtain ⟨heq, ha, _⟩ := hc
    refine ⟨heq, ha, ?_⟩
    show wr m ((a :: l).getD 0 0) 0 a = 0
    simp [wr]
  | a :: l, h, t + 2, hc, hnd, _, hlen => by
    obtain ⟨heq, ha, hrest⟩ := hc
    simp only [List.length_cons] at hlen
    have htl : t + 1 ≤ l.length := by omega
    have hwmem : l.getD t 0 ∈ l := by
      rw [List.getD_eq_getElem l 0 (by omega)]
      exact List.getElem_mem _
    have hanotin : a ∉ l := (List.nodup_cons.mp hnd).1
    have hwa : l.getD t 0 ≠ a := fun he => hanotin (he ▸ hwmem)
    have hgetD : (a :: l).getD (t + 2 - 1) 0 = l.getD t 0 := by
      show (a :: l).getD (t + 1) 0 = l.getD t 0
      rw [List.getD_cons_succ]
    rw [hgetD]
    refine ⟨heq, ha, ?_⟩
    have hma : wr m (l.getD t 0) 0 a = m a := by
      simp only [wr]
      rw [if_neg (Ne.symm hwa)]
    rw [hma]
    have hih := isChain_take_cut m l (m a) (t + 1) hrest
      (List.nodup_cons.mp hnd).2 (by omega) htl
    simpa using hih

/-- The memory produced by the carving branch of `fetchRange` links the
first `alloc` blocks into a null-terminated chain, provided the span is
zero-initialised at its first word (needed only when a single block is
handed out, since the source then skips the terminator write). -/
theorem carve_chainN (m : Mem) (start bsize alloc total : Nat)
    (hs : 0 < bsize) (h0 : 0 < start) (hm0 : m start = 0) (hat : alloc ≤ total) :
    chainN (if alloc < total then
        buildChain (if 1 < alloc then buildChain m start bsize 0 alloc else m)
          start bsize alloc (total - alloc)
      else (if 1 < alloc then buildChain m start bsize 0 alloc else m))
      start alloc := by
  have hstart : blkAddr start bsize 0 = start := by unfold blkAddr; omega
  by_cases h2 : 1 < alloc
  · rw [if_pos h2]
    by_cases hlt : alloc < total
    · rw [if_pos hlt]
      have hreads : ∀ i, i < alloc →
          buildChain (buildChain m start bsize 0 alloc) start bsize alloc
              (total - alloc) (blkAddr start bsize (0 + i)) =
            if i + 1 < alloc then blkAddr start bsize (0 + i + 1) else 0 := by
        intro i hi
        rw [buildChain_out start bsize (total - alloc) alloc _ _
          (fun j hj1 _ => blkAddr_ne start bsize (0 + i) j hs (by omega))]
        exact buildChain_read start bsize hs alloc 0 i m hi
      have hres := chainN_blocks start bsize hs h0 _ alloc 0 hreads
      rwa [hstart] at hres
    · rw [if_neg hlt]
      have hreads : ∀ i, i < alloc →
          buildChain m start bsize 0 alloc (blkAddr start bsize (0 + i)) =
            if i + 1 < alloc then blkAddr start bsize (0 + i + 1) else 0 :=
        fun i hi => buildChain_read start bsize hs alloc 0 i m hi
      have hres := chainN_blocks start bsize hs h0 _ alloc 0 hreads
      rwa [hstart] at hres
  · rw [if_neg h2]
    have hstart_ne : ∀ j, 1 ≤ j → start ≠ blkAddr start bsize j := by
      intro j hj
      unfold blkAddr
      have hjb : 1 * bsize ≤ j * bsize := Nat.mul_le_mul_right bsize hj
      omega
    have halloc : alloc = 0 ∨ alloc = 1 := by omega
    rcases halloc with rfl | rfl
    · by_cases hlt : 0 < total <;> simp [hlt, chainN]
    · by_cases hlt : 1 < total
      · rw [if_pos hlt]
        refine ⟨by omega, ?_⟩
        have hout := buildChain_out start bsize (total - 1) 1
            m start (fun j hj1 _ => hstart_ne j (by omega))
        rw [hout, hm0]
      · rw [if_neg hlt]
        exact ⟨by omega, hm0⟩

/-- Claim C5: the blocks `fetchRange` hands to the caller always form a
linked chain in which each block's first word points to the next block and
the last block's first word is null — of length `min batchNum totalBlocks`
in the freshly-carved-span case and `min batchNum (list length)` in the
existing-list case — for every `batchNum ≥ 1`. Hypothesis `hz` records that
a span handed over by the page tier is zero-initialised (`systemAlloc` ends
in `memset(ptr, 0, size)`, and spans are never recycled in this variant);
the single-block carve relies on it for its terminator. -/
theorem fetchRange_chain (index batchNum spanPtr : Nat) (st : CCState)
    (l : List Nat)
    (hb : 1 ≤ batchNum) (hi : index < FREE_LIST_SIZE)
    (hc : isChain st.mem (st.heads index) l) (hnd : l.Nodup)
    (hz : st.heads index = 0 → spanPtr ≠ 0 →
      ∀ k, k < SPAN_PAGES * PAGE_SIZE → st.mem (spanPtr + k) = 0) :
    chainN (fetchRange index batchNum spanPtr st).2.mem
      (fetchRange index batchNum spanPtr st).1
      (if st.heads index = 0 then
        if spanPtr = 0 then 0
        else min batchNum (SPAN_PAGES * PAGE_SIZE / ((index + 1) * ALIGNMENT))
       else min batchNum l.length) := by
  have hguard : ¬ (FREE_LIST_SIZE ≤ index ∨ batchNum = 0) := by omega
  unfold fetchRange
  rw [if_neg hguard]
  by_cases h0 : st.heads index = 0
  · rw [if_pos h0, if_pos h0]
    by_cases hsp : spanPtr = 0
    · rw [if_pos hsp, if_pos hsp]
      exact trivial
    · rw [if_neg hsp, if_neg hsp]
      have hs : 0 < (index + 1) * ALIGNMENT := by unfold ALIGNMENT; omega
      have hm0 : st.mem spanPtr = 0 := by
        have := hz h0 hsp 0 (by unfold SPAN_PAGES PAGE_SIZE; omega)
        simpa using this
      exact carve_chainN st.mem spanPtr ((index + 1) * ALIGNMENT)
        (min batchNum (SPAN_PAGES * PAGE_SIZE / ((index + 1) * ALIGNMENT)))
        (SPAN_PAGES * PAGE_SIZE / ((index + 1) * ALIGNMENT))
        hs (by omega) hm0 (min_le_right _ _)
  · rw [if_neg h0, if_neg h0]
    have hlne : l ≠ [] := by
      intro hnil
      subst hnil
      exact h0 hc
    have ht1 : 1 ≤ min batchNum l.length := by
      have : 1 ≤ l.length := by
        cases l with
        | nil => exact absurd rfl hlne
        | cons a t => simp
      omega
    have htlen : min batchNum l.length ≤ l.length := min_le_right _ _
    have hspec := walkN_spec st.mem batchNum l (st.heads index) 0 hc hb hlne
    have hprevmem : l.getD (min batchNum l.length - 1) 0 ∈ l := by
      rw [List.getD_eq_getElem l 0 (by omega)]
      exact List.getElem_mem _
    have hprev : l.getD (min batchNum l.length - 1) 0 ≠ 0 :=
      isChain_ne_zero st.mem l (st.heads index) _ hc hprevmem
    have hcut := isChain_take_cut st.mem l (st.heads index)
      (min batchNum l.length) hc hnd ht1 htlen
    have hchain := chainN_of_isChain _ _ _ hcut
    rw [List.length_take] at hchain
    have hminmin : min (min batchNum l.length) l.length = min batchNum l.length := by
      omega
    rw [hminmin] at hchain
    show chainN
      (if (walkN st.mem (st.heads index) 0 batchNum).1 ≠ 0 then
        wr st.mem (walkN st.mem (st.heads index) 0 batchNum).1 0
       else st.mem)
      (st.heads index) (min batchNum l.length)
    rw [hspec]
    show chainN
      (if l.getD (min batchNum l.length - 1) 0 ≠ 0 then
        wr st.mem (l.getD (min batchNum l.length - 1) 0) 0
       else st.mem)
      (st.heads index) (min batchNum l.length)
    rw [if_pos hprev]
    exact hchain

/-- Witness for C5: a carve from a zeroed span with `batchNum = 1` at size
class 0. -/
theorem fetchRange_chain_witness :
    chainN (fetchRange 0 1 4096 zeroCC).2.mem (fetchRange 0 1 4096 zeroCC).1
      (if zeroCC.heads 0 = 0 then
        if (4096 : Nat) = 0 then 0
        else min 1 (SPAN_PAGES * PAGE_SIZE / ((0 + 1) * ALIGNMENT))
       else min 1 ([] : List Nat).length) :=
  fetchRange_chain 0 1 4096 zeroCC [] (by decide) (by decide) rfl (by simp)
    (fun _ _ _ _ => rfl)

/-- With `freeSpans_` empty (as in every state this variant reaches), the
best-fit lookup fails and `allocateSpan` maps a fresh span at `osNext`. -/
theorem allocateSpan_empty (numPages : Nat) (pc : PCState)
    (h : pc.freeSpans = []) :
    allocateSpan numPages pc =
      (some pc.osNext,
        { pc with spanMap := mapSet pc.spanMap pc.osNext numPages,
                  osNext := pc.osNext + numPages * PAGE_SIZE }) := by
  unfold allocateSpan
  rw [show lowerBound pc.freeSpans numPages = none from by rw [h]; rfl]
  rfl

theorem fetchFromPageCacheAbs_empty (size : Nat) (pc : PCState)
    (h : pc.freeSpans = []) :
    ∃ numPages, fetchFromPageCacheAbs size pc =
      (some pc.osNext,
        { pc with spanMap := mapSet pc.spanMap pc.osNext numPages,
                  osNext := pc.osNext + numPages * PAGE_SIZE }) := by
  unfold fetchFromPageCacheAbs
  by_cases hle : size ≤ SPAN_PAGES * PAGE_SIZE
  · exact ⟨SPAN_PAGES, by rw [if_pos hle]; exact allocateSpan_empty _ _ h⟩
  · exact ⟨(size + PAGE_SIZE - 1) / PAGE_SIZE,
      by rw [if_neg hle]; exact allocateSpan_empty _ _ h⟩

theorem dvd_blockList (start size n a : Nat) (hstart : ALIGNMENT ∣ start)
    (hsize : ALIGNMENT ∣ size) (ha : a ∈ blockList start size n) :
    ALIGNMENT ∣ a := by
  unfold blockList at ha
  obtain ⟨i, _, rfl⟩ := List.mem_map.mp ha
  exact Nat.dvd_add hstart (Dvd.dvd.mul_left hsize i)

theorem align_dvd_page : ALIGNMENT ∣ PAGE_SIZE := by
  unfold ALIGNMENT PAGE_SIZE
  decide

theorem Inv_fetchRange (index batchNum : Nat) (st : AState) (hI : Inv st) :
    Inv (fetchRangeAbs index batchNum st).2 ∧
      (∀ chain, (fetchRangeAbs index batchNum st).1 = some chain →
        ∀ a ∈ chain, ALIGNMENT ∣ a) := by
  obtain ⟨hT, hC, hL, hFS, hOS⟩ := hI
  unfold fetchRangeAbs
  by_cases hg : FREE_LIST_SIZE ≤ index ∨ batchNum = 0
  · rw [if_pos hg]
    exact ⟨⟨hT, hC, hL, hFS, hOS⟩, by intro chain h; simp at h⟩
  · rw [if_neg hg]
    cases hcl : st.central index with
    | nil =>
      obtain ⟨np, heq⟩ :=
        fetchFromPageCacheAbs_empty ((index + 1) * ALIGNMENT) st.pc hFS
      simp only [heq]
      have hstart : ALIGNMENT ∣ st.pc.osNext := dvd_trans align_dvd_page hOS
      have hsize : ALIGNMENT ∣ (index + 1) * ALIGNMENT := dvd_mul_left _ _
      constructor
      · refine ⟨hT, ?_, hL, hFS, ?_⟩
        · intro i a hmem
          by_cases hlt : min batchNum (SPAN_PAGES * PAGE_SIZE / ((index + 1) * ALIGNMENT)) <
              SPAN_PAGES * PAGE_SIZE / ((index + 1) * ALIGNMENT)
          · rw [if_pos hlt] at hmem
            by_cases hii : i = index
            · subst hii
              simp only [updF, if_pos rfl] at hmem
              exact dvd_blockList _ _ _ _ hstart hsize
                (List.drop_subset _ _ hmem)
            · simp only [updF, if_neg hii] at hmem
              exact hC i a hmem
          · rw [if_neg hlt] at hmem
            exact hC i a hmem
        · exact Nat.dvd_add hOS (Dvd.dvd.mul_left (dvd_refl PAGE_SIZE) np)
      · intro chain hch a hmem
        have hch2 : chain =
            (if min batchNum (SPAN_PAGES * PAGE_SIZE / ((index + 1) * ALIGNMENT)) = 0
             then [st.pc.osNext]
             else blockList st.pc.osNext ((index + 1) * ALIGNMENT)
               (min batchNum (SPAN_PAGES * PAGE_SIZE / ((index + 1) * ALIGNMENT)))) := by
          exact (Option.some.injEq _ _).mp hch.symm
        subst hch2
        by_cases hz : min batchNum (SPAN_PAGES * PAGE_SIZE / ((index + 1) * ALIGNMENT)) = 0
        · rw [if_pos hz] at hmem
          simp at hmem
          subst hmem
          exact hstart
        · rw [if_neg hz] at hmem
          exact dvd_blockList _ _ _ _ hstart hsize hmem
    | cons hd tl =>
      constructor
      · refine ⟨hT, ?_, hL, hFS, hOS⟩
        intro i a hmem
        by_cases hii : i = index
        · subst hii
          simp only [updF, if_pos rfl] at hmem
          exact hC _ a (hcl ▸ List.drop_subset _ _ hmem)
        · simp only [updF, if_neg hii] at hmem
          exact hC i a hmem
      · intro chain hch a hmem
        have hch2 : chain = (hd :: tl).take batchNum :=
          (Option.some.injEq _ _).mp hch.symm
        subst hch2
        exact hC _ a (hcl ▸ List.take_subset _ _ hmem)

theorem Inv_fetchCentral (index : Nat) (st : AState) (hI : Inv st) :
    Inv (fetchFromCentralCacheAbs index st).2 ∧
      (∀ a, (fetchFromCentralCacheAbs index st).1 = some a → ALIGNMENT ∣ a) := by
  obtain ⟨hres, hchain⟩ :=
    Inv_fetchRange index (getBatchNum ((index + 1) * ALIGNMENT)) st hI
  unfold fetchFromCentralCacheAbs
  cases hr : (fetchRangeAbs index (getBatchNum ((index + 1) * ALIGNMENT)) st).1 with
  | none =>
    simp only [hr]
    exact ⟨hres, by intro a h; simp at h⟩
  | some chain =>
    cases chain with
    | nil =>
      simp only [hr]
      exact ⟨hres, by intro a h; simp at h⟩
    | cons hd tl =>
      simp only [hr]
      obtain ⟨hT, hC, hL, hFS, hOS⟩ := hres
      have hal : ∀ a ∈ hd :: tl, ALIGNMENT ∣ a := hchain _ hr
      constructor
      · by_cases hb : 1 < getBatchNum ((index + 1) * ALIGNMENT)
        · rw [if_pos hb]
          refine ⟨?_, hC, ?_, hFS, hOS⟩
          · intro i a hmem
            by_cases hii : i = index
            · subst hii
              simp only [updF, if_pos rfl] at hmem
              exact hal a (List.mem_cons_of_mem hd hmem)
            · simp only [updF, if_neg hii] at hmem
              exact hT i a hmem
          · intro a hmem
            rcases List.mem_cons.mp hmem with rfl | hmem2
            · exact hal a (List.mem_cons_self _ _)
            · exact hL a hmem2
        · rw [if_neg hb]
          refine ⟨hT, hC, ?_, hFS, hOS⟩
          intro a hmem
          rcases List.mem_cons.mp hmem with rfl | hmem2
          · exact hal a (List.mem_cons_self _ _)
          · exact hL a hmem2
      · intro a ha
        have : hd = a := by
          by_cases hb : 1 < getBatchNum ((index + 1) * ALIGNMENT) <;>
            simp [hb] at ha <;> exact ha
        subst this
        exact hal hd (List.mem_cons_self _ _)

theorem Inv_alloc (s : Nat) (st : AState) (hI : Inv st) :
    Inv (allocateAbs s st).2 ∧
      (∀ a, (allocateAbs s st).1 = some a → ALIGNMENT ∣ a) := by
  obtain ⟨hT, hC, hL, hFS, hOS⟩ := hI
  by_cases hbig : MAX_BYTES < (if s = 0 then ALIGNMENT else s)
  · have hred : allocateAbs s st = (none, st) := by
      unfold allocateAbs
      rw [if_pos hbig]
    rw [hred]
    exact ⟨⟨hT, hC, hL, hFS, hOS⟩, by intro a h; simp at h⟩
  · cases htf : st.tFree (getIndex (roundUp (if s = 0 then ALIGNMENT else s))) with
    | nil =>
      have hred : allocateAbs s st =
          fetchFromCentralCacheAbs
            (getIndex (roundUp (if s = 0 then ALIGNMENT else s))) st := by
        unfold allocateAbs
        rw [if_neg hbig]
        dsimp only
        rw [htf]
      rw [hred]
      exact Inv_fetchCentral _ st ⟨hT, hC, hL, hFS, hOS⟩
    | cons ptr rest =>
      have hred : allocateAbs s st =
          (some ptr, { st with
            tFree := updF st.tFree
              (getIndex (roundUp (if s = 0 then ALIGNMENT else s))) rest,
            tSize := updF st.tSize
              (getIndex (roundUp (if s = 0 then ALIGNMENT else s)))
              (st.tSize (getIndex (roundUp (if s = 0 then ALIGNMENT else s))) - 1),
            live := ptr :: st.live }) := by
        unfold allocateAbs
        rw [if_neg hbig]
        dsimp only
        rw [htf]
      rw [hred]
      have hptr : ALIGNMENT ∣ ptr := hT _ ptr (htf ▸ List.mem_cons_self _ _)
      constructor
      · refine ⟨?_, hC, ?_, hFS, hOS⟩
        · intro i a hmem
          by_cases hii : i = getIndex (roundUp (if s = 0 then ALIGNMENT else s))
          · subst hii
            have hmem2 : a ∈ rest := by simpa [updF] using hmem
            exact hT _ a (htf ▸ List.mem_cons_of_mem ptr hmem2)
          · simp only [updF, if_neg hii] at hmem
            exact hT i a hmem
        · intro a hmem
          rcases List.mem_cons.mp hmem with rfl | hmem2
          · exact hptr
          · exact hL a hmem2
      · intro a ha
        have : ptr = a := by simpa using ha
        subst this
        exact hptr

theorem Inv_returnToCentral (l : List Nat) (size : Nat) (st : AState)
    (hI : Inv st) (hl : ∀ a ∈ l, ALIGNMENT ∣ a) :
    Inv (returnToCentralCacheAbs l size st) := by
  obtain ⟨hT, hC, hL, hFS, hOS⟩ := hI
  unfold returnToCentralCacheAbs
  by_cases h1 : st.tSize (getIndex size) ≤ 1
  · rw [if_pos h1]
    exact ⟨hT, hC, hL, hFS, hOS⟩
  · rw [if_neg h1]
    by_cases h2 : l.length < max (st.tSize (getIndex size) / 4) 1
    · rw [if_pos h2]
      exact ⟨hT, hC, hL, hFS, hOS⟩
    · rw [if_neg h2]
      have hT1 : ∀ i a,
          a ∈ updF st.tFree (getIndex size)
            (l.take (max (st.tSize (getIndex size) / 4) 1)) i →
          ALIGNMENT ∣ a := by
        intro i a hmem
        by_cases hii : i = getIndex size
        · subst hii
          simp only [updF, if_pos rfl] at hmem
          exact hl a (List.take_subset _ _ hmem)
        · simp only [updF, if_neg hii] at hmem
          exact hT i a hmem
      by_cases h3 : 0 < st.tSize (getIndex size) - max (st.tSize (getIndex size) / 4) 1 ∧
          ¬ (l.drop (max (st.tSize (getIndex size) / 4) 1)).isEmpty
      · rw [if_pos h3]
        refine ⟨hT1, ?_, hL, hFS, hOS⟩
        intro i a hmem
        unfold returnRangeAbs at hmem
        by_cases hg : (l.drop (max (st.tSize (getIndex size) / 4) 1)).isEmpty = true ∨
            FREE_LIST_SIZE ≤ getIndex size
        · rw [if_pos hg] at hmem
          exact hC i a hmem
        · rw [if_neg hg] at hmem
          by_cases hii : i = getIndex size
          · subst hii
            simp only [updF, if_pos rfl] at hmem
            rcases List.mem_append.mp hmem with hmem2 | hmem2
            · exact hl a (List.drop_subset _ _ (List.take_subset _ _ hmem2))
            · exact hC _ a hmem2
          · simp only [updF, if_neg hii] at hmem
            exact hC i a hmem
      · rw [if_neg h3]
        exact ⟨hT1, hC, hL, hFS, hOS⟩

theorem Inv_dealloc (ptr s : Nat) (st : AState) (hI : Inv st)
    (hp : ptr ∈ st.live) : Inv (deallocAbs ptr s st) := by
  obtain ⟨hT, hC, hL, hFS, hOS⟩ := hI
  have hptr : ALIGNMENT ∣ ptr := hL ptr hp
  have hL2 : ∀ a ∈ st.live.erase ptr, ALIGNMENT ∣ a :=
    fun a ha => hL a (List.mem_of_mem_erase ha)
  unfold deallocAbs
  by_cases hbig : MAX_BYTES < s
  · rw [if_pos hbig]
    exact ⟨hT, hC, hL2, hFS, hOS⟩
  · rw [if_neg hbig]
    have hT1 : ∀ i a,
        a ∈ updF st.tFree (getIndex s) (ptr :: st.tFree (getIndex s)) i →
        ALIGNMENT ∣ a := by
      intro i a hmem
      by_cases hii : i = getIndex s
      · subst hii
        simp only [updF, if_pos rfl] at hmem
        rcases List.mem_cons.mp hmem with rfl | hmem2
        · exact hptr
        · exact hT _ a hmem2
      · simp only [updF, if_neg hii] at hmem
        exact hT i a hmem
    have hI1 : Inv { st with
        tFree := updF st.tFree (getIndex s) (ptr :: st.tFree (getIndex s)),
        tSize := updF st.tSize (getIndex s) (st.tSize (getIndex s) + 1),
        live := st.live.erase ptr } := ⟨hT1, hC, hL2, hFS, hOS⟩
    by_cases hth : 64 < updF st.tSize (getIndex s) (st.tSize (getIndex s) + 1)
        (getIndex s)
    · rw [if_pos hth]
      refine Inv_returnToCentral _ s _ hI1 ?_
      intro a hmem
      simp only [updF, if_pos rfl] at hmem
      rcases List.mem_cons.mp hmem with rfl | hmem2
      · exact hptr
      · exact hT _ a hmem2
    · rw [if_neg hth]
      exact hI1

theorem Inv_of_reach (st : AState) (h : Reach st) : Inv st := by
  induction h with
  | init base h0 ha =>
    refine ⟨?_, ?_, ?_, rfl, ha⟩
    · intro i a hmem
      simp [initState] at hmem
    · intro i a hmem
      simp [initState] at hmem
    · intro a hmem
      simp [initState] at hmem
  | alloc s h ih => exact (Inv_alloc s _ ih).1
  | dealloc ptr s h hp ih => exact Inv_dealloc ptr s _ ih hp

/-- Claim C2: in every reachable allocator state, a successful `allocate`
for a request size `1 ≤ s ≤ MAX_BYTES` returns an address whose low three
bits are zero (a multiple of `ALIGNMENT = 8`) — including addresses recycled
through the thread-tier and central-tier free lists, which the reachability
relation lets circulate arbitrarily. -/
theorem allocate_aligned (st : AState) (hr : Reach st) (s a : Nat)
    (h1 : 1 ≤ s) (h2 : s ≤ MAX_BYTES)
    (ha : (allocateAbs s st).1 = some a) : a % 8 = 0 := by
  have hI := Inv_of_reach st hr
  have hdvd := (Inv_alloc s st hI).2 a ha
  unfold ALIGNMENT at hdvd
  omega

/-- Witness for C2: the very first allocation of one byte lands on the
page-aligned span start 4096. -/
theorem allocate_aligned_witness :
    (allocateAbs 1 (initState 4096)).1 = some 4096 ∧ 4096 % 8 = 0 :=
  ⟨rfl, allocate_aligned (initState 4096)
    (Reach.init 4096 (by decide) ⟨1, rfl⟩) 1 4096 (by decide) (by decide) rfl⟩

theorem updF_self {α : Type} (f : Nat → α) (i : Nat) (v : α) :
    updF f i v i = v := by
  simp [updF]

theorem updF_ne {α : Type} (f : Nat → α) {j i : Nat} (v : α) (h : j ≠ i) :
    updF f i v j = f j := by
  simp [updF, h]

/-- Claim C7: `deallocate` pushes the block onto `freeList_[i]` and bumps
`freeListSize_[i]`; exactly when the counter then exceeds
`THREAD_RETURN_THRESHOLD = 64` the spill runs and — when the counter agrees
with the actual list length `n`, as it does whenever refills were never
short — keeps `keep = max(1, n / 4)` blocks, sets `freeListSize_[i] = keep`,
and hands the remaining `n - keep` blocks to `returnRange`, which splices
them in front of `centralFreeList_[i]`; and a spill entered with a counter
`n ≤ 1` changes nothing. -/
theorem deallocate_spill_spec (ptr s : Nat) (st : AState)
    (h1 : 1 ≤ s) (h2 : s ≤ MAX_BYTES) :
    (st.tSize (getIndex s) + 1 ≤ 64 →
      deallocAbs ptr s st =
        { st with
          tFree := updF st.tFree (getIndex s) (ptr :: st.tFree (getIndex s)),
          tSize := updF st.tSize (getIndex s) (st.tSize (getIndex s) + 1),
          live := st.live.erase ptr }) ∧
    (64 < st.tSize (getIndex s) + 1 →
      st.tSize (getIndex s) + 1 = (ptr :: st.tFree (getIndex s)).length →
      (deallocAbs ptr s st).tFree (getIndex s) =
          (ptr :: st.tFree (getIndex s)).take
            (max ((st.tSize (getIndex s) + 1) / 4) 1) ∧
      (deallocAbs ptr s st).tSize (getIndex s) =
          max ((st.tSize (getIndex s) + 1) / 4) 1 ∧
      (deallocAbs ptr s st).central (getIndex s) =
          (ptr :: st.tFree (getIndex s)).drop
              (max ((st.tSize (getIndex s) + 1) / 4) 1) ++
            st.central (getIndex s) ∧
      ((ptr :: st.tFree (getIndex s)).drop
          (max ((st.tSize (getIndex s) + 1) / 4) 1)).length =
        st.tSize (getIndex s) + 1 -
          max ((st.tSize (getIndex s) + 1) / 4) 1) ∧
    (∀ (l : List Nat) (st2 : AState), st2.tSize (getIndex s) ≤ 1 →
      returnToCentralCacheAbs l s st2 = st2) := by
  have hbig : ¬ MAX_BYTES < s := by omega
  refine ⟨?_, ?_, ?_⟩
  · intro hle
    unfold deallocAbs
    rw [if_neg hbig]
    dsimp only
    rw [updF_self, if_neg (by omega)]
  · intro hgt hsync
    set n := st.tSize (getIndex s) + 1 with hn
    set keep := max (n / 4) 1 with hkeep
    set l := ptr :: st.tFree (getIndex s) with hl
    have hkeep_le : keep ≤ n := by omega
    have hrn : 1 ≤ n - keep := by omega
    have hlen : l.length = n := hsync.symm
    have hasz : 8 ≤ roundUp s := roundUp_ge s h1 h2
    have hidx : ¬ FREE_LIST_SIZE ≤ getIndex s := by
      have := getIndex_le s h2
      omega
    have hdroplen : (l.drop keep).length = n - keep := by
      rw [List.length_drop, hlen]
    have hdropne : ¬ (l.drop keep).isEmpty = true := by
      rw [List.isEmpty_iff_length_eq_zero, hdroplen]
      omega
    have htake : (l.drop keep).take (max ((n - keep) * roundUp s) 1) =
        l.drop keep := by
      apply List.take_of_length_le
      rw [hdroplen]
      have : (n - keep) * 1 ≤ (n - keep) * roundUp s :=
        Nat.mul_le_mul_left _ (by omega)
      omega
    have hst1 : deallocAbs ptr s st =
        returnToCentralCacheAbs l s
          { st with tFree := updF st.tFree (getIndex s) l,
                    tSize := updF st.tSize (getIndex s) n,
                    live := st.live.erase ptr } := by
      unfold deallocAbs
      rw [if_neg hbig]
      dsimp only
      rw [updF_self, if_pos (by omega), updF_self]
    have hst2 : returnToCentralCacheAbs l s
          { st with tFree := updF st.tFree (getIndex s) l,
                    tSize := updF st.tSize (getIndex s) n,
                    live := st.live.erase ptr } =
        { st with
          tFree := updF (updF st.tFree (getIndex s) l) (getIndex s)
            (l.take keep),
          tSize := updF (updF st.tSize (getIndex s) n) (getIndex s) keep,
          live := st.live.erase ptr,
          central := updF st.central (getIndex s)
            ((l.drop keep).take (max ((n - keep) * roundUp s) 1) ++
              st.central (getIndex s)) } := by
      unfold returnToCentralCacheAbs
      dsimp only
      rw [updF_self, if_neg (by omega : ¬ n ≤ 1),
        if_neg (by rw [hlen]; omega : ¬ l.length < max (n / 4) 1)]
      rw [if_pos ⟨by omega, hdropne⟩]
      unfold returnRangeAbs
      rw [if_neg (by simp [hdropne, hidx])]
    rw [hst1, hst2]
    refine ⟨?_, ?_, ?_, ?_⟩
    · dsimp only
      rw [updF_self]
    · dsimp only
      rw [updF_self]
    · dsimp only
      rw [updF_self, htake]
    · rw [hdroplen]
  · intro l st2 hle
    unfold returnToCentralCacheAbs
    dsimp only
    rw [if_pos hle]

/-- Witness for C7: the first deallocation at size 8 pushes the block and
bumps the counter, with no spill. -/
theorem deallocate_spill_spec_witness :
    deallocAbs 64 8 (initState 4096) =
      { initState 4096 with
        tFree := updF (initState 4096).tFree (getIndex 8)
          (64 :: (initState 4096).tFree (getIndex 8)),
        tSize := updF (initState 4096).tSize (getIndex 8)
          ((initState 4096).tSize (getIndex 8) + 1),
        live := ((initState 4096).live).erase 64 } :=
  (deallocate_spill_spec 64 8 (initState 4096) (by decide) (by decide)).1
    (by decide)

end MemPool
